import Mathlib

/-
  Verification of the jb-mcp-bridge stdio-to-SSE relay (src/bridge.ts).

  The source is shallowly embedded over List Char: every path string,
  line, and chunk of the TypeScript program is modelled as a list of
  characters, and each function of bridge.ts is translated into an
  executable Lean definition carrying the line numbers it came from.
-/

namespace Bridge

/-! ## Path translator (bridge.ts lines 46-63) -/

/-- The JavaScript regular expression replace of bridge.ts lines 47 and 52
replaces the first occurrence of slash, at-sign, one or more non-slash
characters, slash, by a single slash.  Helper: scan to the first slash and
return the suffix beginning at that slash. -/
def dropToSlash : List Char → Option (List Char)
  | [] => none
  | c :: cs => if c = '/' then some (c :: cs) else dropToSlash cs

/-- If the list begins with the virtual-workspace segment
slash, at-sign, nonempty non-slash run, slash, return the suffix
beginning at the terminating slash (the replacement result keeps that
slash); otherwise none. -/
def vwTail : List Char → Option (List Char)
  | '/' :: '@' :: c :: cs => if c = '/' then none else dropToSlash cs
  | _ => none

/-- bridge.ts lines 47 and 52: replace the first match of the
virtual-workspace pattern by a single slash. -/
def stripVW : List Char → List Char
  | [] => []
  | c :: cs =>
    match vwTail (c :: cs) with
    | some rest => rest
    | none => c :: stripVW cs

/-- bridge.ts line 48: the fixed WSL root prepended to the normalized path. -/
def wslRoot : List Char := "//wsl.localhost/Ubuntu".toList

/-- bridge.ts lines 46-49, function unixToWslPath. -/
def unixToWslPath (unixPath : List Char) : List Char :=
  wslRoot ++ stripVW unixPath

/-- The reversal of the characters of the segment "/dev/". -/
def devSegRev : List Char := ['/', 'v', 'e', 'd', '/']

/-- The characters of the segment "/dev/". -/
def devSeg : List Char := ['/', 'd', 'e', 'v', '/']

/-- bridge.ts lines 51-55, function extractProjectSubfolder: after
stripping the virtual-workspace segment, match the anchored pattern
slash, d, e, v, slash, nonempty non-slash run, end-of-string, and return
the captured run.  Implemented on the reversed list: the capture is the
maximal trailing run of non-slash characters, and the five characters
before it must be the segment "/dev/" reversed. -/
def extractProjectSubfolder (projectPath : List Char) : Option (List Char) :=
  if (stripVW projectPath).reverse.takeWhile (· ≠ '/') ≠ [] ∧
      devSegRev.isPrefixOf ((stripVW projectPath).reverse.dropWhile (· ≠ '/')) then
    some ((stripVW projectPath).reverse.takeWhile (· ≠ '/')).reverse
  else none

/-- The four path classifications of bridge.ts line 57. -/
inductive PathClass
  | wsl
  | unix
  | windows
  | relative
deriving DecidableEq

/-- bridge.ts line 59, first disjunct: "//wsl.localhost". -/
def wslPfx : List Char := "//wsl.localhost".toList

/-- bridge.ts line 59, second disjunct: two backslashes then
"wsl.localhost" (the JavaScript literal has four backslashes). -/
def wslPfxB : List Char := '\\' :: '\\' :: "wsl.localhost".toList

def homePfx : List Char := "/home/".toList
def usersPfx : List Char := "/Users/".toList
def tmpPfx : List Char := "/tmp/".toList

/-- bridge.ts line 61: the test of the regular expression caret,
letter-class, colon: first character an ASCII letter, second a colon. -/
def isDriveLetter : List Char → Bool
  | c :: d :: _ => c.isAlpha && d = ':'
  | _ => false

/-- bridge.ts lines 57-63, function classifyPath.  The empty string is
falsy in JavaScript, giving the relative classification. -/
def classifyPath (p : List Char) : PathClass :=
  if p = [] then .relative
  else if wslPfx.isPrefixOf p || wslPfxB.isPrefixOf p then .wsl
  else if homePfx.isPrefixOf p || usersPfx.isPrefixOf p || tmpPfx.isPrefixOf p then .unix
  else if isDriveLetter p then .windows
  else .relative

/-! ## Event stream processing (bridge.ts lines 126-164)

The connection read loop decodes each received chunk, appends it to a
carry-over buffer, splits on the newline character, pops the trailing
unterminated fragment back into the buffer, and hands the complete lines
to processLines.  processLines keeps two local slots, pendingData and
pendingEvent, both initialised to the empty string at the start of each
batch. -/

/-- An emitted pair: first the event name, then the data payload. -/
abbrev EPair := List Char × List Char

/-- The six characters of the line prefix d, a, t, a, colon, space
(bridge.ts line 152). -/
def dataPfx : List Char := ['d', 'a', 't', 'a', ':', ' ']

/-- The seven characters of the line prefix e, v, e, n, t, colon, space
(bridge.ts line 153). -/
def eventPfx : List Char := ['e', 'v', 'e', 'n', 't', ':', ' ']

/-- ASCII whitespace as removed by the JavaScript trim of bridge.ts
line 154 (event names in this protocol are ASCII, so the further Unicode
whitespace removed by trim never occurs). -/
def jsWS (c : Char) : Bool :=
  c = ' ' || c = '\t' || c = '\n' || c = '\r' || c = Char.ofNat 11 || c = Char.ofNat 12

/-- The JavaScript trim of bridge.ts line 154: remove leading and
trailing whitespace. -/
def jsTrim (s : List Char) : List Char :=
  ((s.dropWhile jsWS).reverse.dropWhile jsWS).reverse

/-- One iteration of the loop body of processLines (bridge.ts lines
151-162).  State is the pair (pendingData, pendingEvent); the result
carries the new state and the emitted (event, data) pairs.  An emission
is the moment both slots are cleared after dispatching on the event
name; the dispatch itself (storing the endpoint, parsing a message) is
modelled separately. -/
def procLine (st : List Char × List Char) (line : List Char) :
    (List Char × List Char) × List EPair :=
  if dataPfx.isPrefixOf line then ((line.drop 6, st.2), [])
  else if eventPfx.isPrefixOf line then
    let ev := jsTrim (line.drop 7)
    if st.1 ≠ [] ∧ ev ≠ [] then (([], []), [(ev, st.1)])
    else ((st.1, ev), [])
  else (st, [])

/-- The loop of processLines over a batch of lines, from a given state. -/
def procLinesFrom (st : List Char × List Char) : List (List Char) → List EPair
  | [] => []
  | l :: ls =>
    let r := procLine st l
    r.2 ++ procLinesFrom r.1 ls

/-- bridge.ts lines 149-164, function processLines: both slots start
empty for every batch of lines (they are local variables of the
function, so nothing carries over between batches). -/
def processLines (lines : List (List Char)) : List EPair :=
  procLinesFrom ([], []) lines

/-- Prepend a character to the first part of a split (helper of
splitNl). -/
def consHead (c : Char) : List (List Char) → List (List Char)
  | [] => [[c]]
  | l :: ls => (c :: l) :: ls

/-- The JavaScript split on the newline character (bridge.ts line 137):
n newlines produce n+1 parts, the last one being the unterminated
trailing fragment (possibly empty). -/
def splitNl : List Char → List (List Char)
  | [] => [[]]
  | c :: cs =>
    if c = '\n' then [] :: splitNl cs
    else consHead c (splitNl cs)

/-- bridge.ts lines 136-139: append the chunk to the carry-over buffer,
split on newlines, pop the trailing fragment back into the buffer, and
process the complete lines.  Returns the new buffer and the emitted
pairs. -/
def feedChunk (buf chunk : List Char) : List Char × List EPair :=
  let parts := splitNl (buf ++ chunk)
  (parts.getLastD [], processLines parts.dropLast)

/-- The read loop of bridge.ts lines 133-140 over a list of chunks,
starting from a given carry-over buffer. -/
def runChunksFrom (buf : List Char) : List (List Char) → List EPair
  | [] => []
  | c :: cs =>
    let r := feedChunk buf c
    r.2 ++ runChunksFrom r.1 cs

/-- The whole stream consumption: buffer starts empty (bridge.ts
line 128). -/
def runChunks (chunks : List (List Char)) : List EPair :=
  runChunksFrom [] chunks

/-- The wire encoding of one (data, event) block: the data line then the
event line, each newline-terminated.  First component is the data
payload, second the event name, matching the wire order of the
non-standard framing (data before event). -/
def encodePair (p : List Char × List Char) : List Char :=
  dataPfx ++ p.1 ++ '\n' :: (eventPfx ++ p.2 ++ ['\n'])

/-- The wire encoding of a sequence of (data, event) blocks. -/
def encodeStream (ps : List (List Char × List Char)) : List Char :=
  (ps.map encodePair).flatten

/-- A well-formed (data, event) block: nonempty data without embedded
newline, and an event name without embedded newline whose trim is
nonempty. -/
def GoodPair (p : List Char × List Char) : Prop :=
  p.1 ≠ [] ∧ '\n' ∉ p.1 ∧ jsTrim p.2 ≠ [] ∧ '\n' ∉ p.2

instance : DecidablePred GoodPair := fun p => by
  unfold GoodPair; infer_instance

/-- The two lines of an encoded block, in wire order. -/
def pairLines (p : List Char × List Char) : List (List Char) :=
  [dataPfx ++ p.1, eventPfx ++ p.2]

/-- The complete lines of an encoded sequence of blocks. -/
def linesOfPairs (ps : List (List Char × List Char)) : List (List Char) :=
  (ps.map pairLines).flatten

/-- The pair emitted by the parser for one well-formed block: the
trimmed event name first, then the data payload. -/
def emitOf (p : List Char × List Char) : EPair := (jsTrim p.2, p.1)

/-- Modelled from the spec (section 4.2, amended): the per-batch framing
rule in the words of the specification.  A data-prefixed line sets the
pending-data slot; an event-prefixed line emits one (event, data) pair
and clears the pending-data slot exactly when that slot is populated and
the trimmed event name is nonempty, and otherwise emits nothing and
keeps the pending-data slot; any other line is ignored. -/
def specLines (pd : List Char) : List (List Char) → List EPair
  | [] => []
  | l :: ls =>
    if dataPfx.isPrefixOf l then specLines (l.drop 6) ls
    else if eventPfx.isPrefixOf l then
      let ev := jsTrim (l.drop 7)
      if pd ≠ [] ∧ ev ≠ [] then (ev, pd) :: specLines [] ls
      else specLines pd ls
    else specLines pd ls

/-! ## Request transformation (bridge.ts lines 31-36 and 65-92) -/

/-- A request identifier: a string or a number (bridge.ts line 33). -/
abbrev MId := (List Char) ⊕ Int

/-- A JSON argument value, to the precision the transform inspects it:
a string, or anything that is not a string (numbers, booleans, objects,
null), which the typeof test of bridge.ts lines 71 and 81 rejects. -/
inductive JsonVal
  | vstr (s : List Char)
  | vother (tag : Nat)
deriving DecidableEq

/-- The arguments object: an association list keyed by property name,
unique keys, insertion-ordered, as a JavaScript object. -/
abbrev ArgMap := List (List Char × JsonVal)

/-- Property read: the value at the first matching key. -/
def alookup {α β : Type} [DecidableEq α] : List (α × β) → α → Option β
  | [], _ => none
  | p :: rest, key => if p.1 = key then some p.2 else alookup rest key

/-- Replace the value at an existing key, keeping its position. -/
def aset {α β : Type} [DecidableEq α] : List (α × β) → α → β → List (α × β)
  | [], _, _ => []
  | p :: rest, k, v =>
    if p.1 = k then (k, v) :: aset rest k v else p :: aset rest k v

/-- JavaScript property write and Map.set: replace in place when the key
exists, append at the end otherwise. -/
def mset {α β : Type} [DecidableEq α] (m : List (α × β)) (k : α) (v : β) :
    List (α × β) :=
  if (alookup m k).isSome then aset m k v else m ++ [(k, v)]

/-- Map.delete: remove the entry of the key. -/
def mdel {α β : Type} [DecidableEq α] : List (α × β) → α → List (α × β)
  | [], _ => []
  | p :: rest, k =>
    if p.1 = k then mdel rest k else p :: mdel rest k

/-- The embedded request: method, optional identifier, and the optional
arguments object (absent when params or params.arguments is missing,
bridge.ts line 66). -/
structure MCPRequest where
  rid : Option MId
  method : List Char
  args : Option ArgMap
deriving DecidableEq

def projectPathK : List Char := "projectPath".toList

def toolsCallM : List Char := "tools/call".toList

/-- bridge.ts line 79: the fixed list of path-bearing argument keys. -/
def relativePathKeys : List (List Char) :=
  ["directoryPath".toList, "filePath".toList, "pathInProject".toList,
   "path".toList, "subDirectoryRelativePath".toList,
   "directoryToSearch".toList, "file_path".toList]

/-- bridge.ts lines 80-88, one iteration of the prepending loop: when
the key holds a truthy string (nonempty) that does not start with a
slash and does not start with the subfolder token, prepend the token and
a slash. -/
def prependStep (tok : List Char) (a : ArgMap) (k : List Char) : ArgMap :=
  match alookup a k with
  | some (JsonVal.vstr v) =>
    if v ≠ [] ∧ ¬(['/'] : List Char).isPrefixOf v ∧ ¬tok.isPrefixOf v then
      mset a k (JsonVal.vstr (tok ++ '/' :: v))
    else a
  | _ => a

/-- bridge.ts lines 72-89 when a unix projectPath was found: projectPath
is rewritten to the WSL form, and when a subfolder token was derived
(from the original value) every path-bearing key is run through the
prepending loop. -/
def transformTok (a : ArgMap) (s : List Char) : Option (List Char) → ArgMap
  | some tok =>
    relativePathKeys.foldl (prependStep tok)
      (mset a projectPathK (JsonVal.vstr (unixToWslPath s)))
  | none => mset a projectPathK (JsonVal.vstr (unixToWslPath s))

/-- bridge.ts line 71: the projectPath string must be truthy (nonempty)
and classified unix for the rewrite to fire. -/
def transformWithPP (a : ArgMap) (s : List Char) : ArgMap :=
  if s ≠ [] ∧ classifyPath s = PathClass.unix then
    transformTok a s (extractProjectSubfolder s)
  else a

/-- bridge.ts lines 68-89, the body of transformRequest acting on the
arguments object: when projectPath holds a truthy string classified
unix, the subfolder is extracted from the original value, projectPath is
rewritten to the WSL form, and when a subfolder was derived each
path-bearing key is run through the prepending loop. -/
def transformArgs (a : ArgMap) : ArgMap :=
  match alookup a projectPathK with
  | some (JsonVal.vstr s) => transformWithPP a s
  | _ => a

/-- bridge.ts lines 65-92, function transformRequest: requests that are
not tools/call or carry no arguments object pass through unchanged. -/
def transformRequest (r : MCPRequest) : MCPRequest :=
  match r.args with
  | some a =>
    if r.method = toolsCallM then { r with args := some (transformArgs a) }
    else r
  | none => r

/-! ## Request correlator (bridge.ts lines 96, 166-171, 184-207) -/

/-- The pendingRequests map of bridge.ts line 96.  The resolve and
reject closures of a waiter are opaque; a waiter is represented by the
handle of its 30-second timeout timer, which identifies it uniquely. -/
abbrev PendingMap := List (MId × Nat)

/-- The embedded response (bridge.ts lines 38-43): the identifier may be
absent; the result or error body is opaque to the correlator. -/
structure MResponse where
  rid : Option MId
  body : Int
deriving DecidableEq

/-- bridge.ts lines 196-199: sendRequest registers the waiter with
Map.set, unconditionally.  The returned action list records every
resolution or rejection performed on a previously registered waiter
during registration: the source performs none, so it is empty. -/
def registerWaiter (m : PendingMap) (rid : MId) (timer : Nat) :
    PendingMap × List MId :=
  (mset m rid timer, [])

/-- bridge.ts line 205, the catch of the POST: delete the waiter of the
request identifier and reject the caller with the transport error,
which is passed through verbatim. -/
def onPostFailure (m : PendingMap) (rid : MId) (err : List Char) :
    PendingMap × List Char :=
  (mdel m rid, err)

/-- bridge.ts lines 166-171, function handleResponse: when the response
carries an identifier with a registered waiter, resolve that waiter with
the response and delete it; otherwise do nothing.  The second component
records the resolved waiter (its timer handle) and the response it was
resolved with. -/
def handleResponse (m : PendingMap) (r : MResponse) :
    PendingMap × Option (Nat × MResponse) :=
  match r.rid with
  | some i =>
    match alookup m i with
    | some w => (mdel m i, some (w, r))
    | none => (m, none)
  | none => (m, none)

/-! ## Connection manager timers (bridge.ts lines 95-146) -/

/-- The connection-manager state: the stored endpoint and the
reconnection timer slot of bridge.ts lines 95-98, together with the set
of scheduled-and-not-yet-fired timers (identifier and delay in
milliseconds), which the runtime owns: setTimeout adds one, clearTimeout
removes one. -/
structure ConnState where
  jbMessageEndpoint : Option (List Char)
  isConnecting : Bool
  reconnectTimer : Option Nat
  liveTimers : List (Nat × Nat)
deriving DecidableEq

/-- bridge.ts lines 109-115, function scheduleReconnect: clear the
previously stored timer if any, then store a freshly created timer with
the fixed 2000 millisecond delay. -/
def scheduleReconnect (s : ConnState) (fresh : Nat) : ConnState :=
  let cleared :=
    match s.reconnectTimer with
    | some t => { s with liveTimers := s.liveTimers.filter (fun p => p.1 ≠ t) }
    | none => s
  { cleared with
    reconnectTimer := some fresh
    liveTimers := cleared.liveTimers ++ [(fresh, 2000)] }

/-- The two ways the streaming connection can drop. -/
inductive DropEvent
  | streamEnded
  | connError
deriving DecidableEq

/-- bridge.ts line 135 (end of stream: clear the endpoint, schedule a
reconnection) and lines 141-146 (connection error: clear the endpoint,
clear the connecting flag, schedule a reconnection). -/
def onDrop (s : ConnState) (e : DropEvent) (fresh : Nat) : ConnState :=
  match e with
  | .streamEnded =>
    scheduleReconnect { s with jbMessageEndpoint := none } fresh
  | .connError =>
    scheduleReconnect { s with jbMessageEndpoint := none, isConnecting := false } fresh

/-- The timer discipline: every live timer is the one stored in the
reconnectTimer slot and carries the fixed 2000 millisecond delay; in
particular at most one reconnection timer is live. -/
def TimerInv (s : ConnState) : Prop :=
  s.liveTimers.length ≤ 1 ∧
  ∀ p ∈ s.liveTimers, s.reconnectTimer = some p.1 ∧ p.2 = 2000

instance : DecidablePred TimerInv := fun s => by
  unfold TimerInv; infer_instance

/-! ## Association-map lemmas -/

theorem alookup_aset_ne {α β : Type} [DecidableEq α] (m : List (α × β)) (k j : α)
    (v : β) (h : j ≠ k) : alookup (aset m k v) j = alookup m j := by
  induction m with
  | nil => rfl
  | cons p rest ih =>
    by_cases hp : p.1 = k
    · have hpj : ¬p.1 = j := by rw [hp]; exact Ne.symm h
      simp [aset, alookup, hp, hpj, Ne.symm h, ih]
    · by_cases hj : p.1 = j
      · simp [aset, alookup, hp, hj, h]
      · simp [aset, alookup, hp, hj, ih]

theorem alookup_aset_self {α β : Type} [DecidableEq α] (m : List (α × β)) (k : α)
    (v : β) (h : (alookup m k).isSome) : alookup (aset m k v) k = some v := by
  induction m with
  | nil => simp [alookup] at h
  | cons p rest ih =>
    by_cases hp : p.1 = k
    · simp [aset, alookup, hp]
    · simp only [alookup, if_neg hp] at h
      simp [aset, alookup, hp, ih h]

theorem alookup_append_right {α β : Type} [DecidableEq α] (m : List (α × β))
    (k : α) (v : β) (h : ¬(alookup m k).isSome) :
    alookup (m ++ [(k, v)]) k = some v := by
  induction m with
  | nil => simp [alookup]
  | cons p rest ih =>
    by_cases hp : p.1 = k
    · simp [alookup, hp] at h
    · simp only [alookup, if_neg hp] at h
      simp [alookup, hp, ih h]

theorem alookup_mset_self {α β : Type} [DecidableEq α] (m : List (α × β)) (k : α)
    (v : β) : alookup (mset m k v) k = some v := by
  unfold mset
  by_cases h : (alookup m k).isSome
  · simp only [if_pos h]
    exact alookup_aset_self m k v h
  · simp only [if_neg h]
    exact alookup_append_right m k v h

theorem alookup_append_ne {α β : Type} [DecidableEq α] (m : List (α × β))
    (k j : α) (v : β) (h : j ≠ k) : alookup (m ++ [(k, v)]) j = alookup m j := by
  induction m with
  | nil => simp [alookup, h, Ne.symm h]
  | cons p rest ih =>
    by_cases hj : p.1 = j
    · simp [alookup, hj]
    · simp [alookup, hj, ih]

theorem alookup_mset_ne {α β : Type} [DecidableEq α] (m : List (α × β)) (k j : α)
    (v : β) (h : j ≠ k) : alookup (mset m k v) j = alookup m j := by
  unfold mset
  by_cases hs : (alookup m k).isSome
  · simp only [if_pos hs]
    exact alookup_aset_ne m k j v h
  · simp only [if_neg hs]
    exact alookup_append_ne m k j v h

theorem alookup_mdel_self {α β : Type} [DecidableEq α] (m : List (α × β)) (k : α) :
    alookup (mdel m k) k = none := by
  induction m with
  | nil => rfl
  | cons p rest ih =>
    by_cases hp : p.1 = k
    · simp [mdel, hp, ih]
    · simp [mdel, alookup, hp, ih]

theorem alookup_mdel_ne {α β : Type} [DecidableEq α] (m : List (α × β)) (k j : α)
    (h : j ≠ k) : alookup (mdel m k) j = alookup m j := by
  induction m with
  | nil => rfl
  | cons p rest ih =>
    by_cases hp : p.1 = k
    · have hpj : ¬p.1 = j := by rw [hp]; exact Ne.symm h
      simp [mdel, hp, alookup, hpj, Ne.symm h, ih]
    · by_cases hj : p.1 = j
      · simp [mdel, hp, alookup, hj, h]
      · simp [mdel, hp, alookup, hj, ih]

/-! ## Prefix helper lemmas -/

theorem isPrefixOf_append_self (l t : List Char) : l.isPrefixOf (l ++ t) = true := by
  rw [ List.isPrefixOf_iff_prefix]
  exact List.prefix_append l t

theorem isPrefixOf_exists {l₁ l₂ : List Char} (h : l₁.isPrefixOf l₂ = true) :
    ∃ t, l₂ = l₁ ++ t := by
  rw [ List.isPrefixOf_iff_prefix] at h
  obtain ⟨t, ht⟩ := h
  exact ⟨t, ht.symm⟩

/-! ## Correlator theorems (claims C2, C7, C8) -/

/-- C2: the claim requires that a duplicate submission is rejected or
that the older waiter is rejected before the new one is registered.  The
source does neither: with waiter 11 registered under identifier "1",
registering waiter 22 under the same identifier silently replaces the
map entry and performs no resolution or rejection (the recorded action
list stays empty), orphaning the first waiter. -/
theorem c2_duplicate_overwrites :
    alookup [((Sum.inl ("1".toList) : MId), 11)] (Sum.inl ("1".toList)) = some 11 ∧
    registerWaiter [((Sum.inl ("1".toList) : MId), 11)] (Sum.inl ("1".toList)) 22 =
      ([((Sum.inl ("1".toList) : MId), 22)], []) := by
  constructor
  · decide
  · decide

/-- C7: when the POST of a submitted request fails, the waiter
registered under that request identifier is removed (its entry is gone,
every other entry is untouched) and the caller is failed with the
transport error itself. -/
theorem c7_post_failure_removes (m : PendingMap) (rid : MId) (err : List Char) :
    alookup (onPostFailure m rid err).1 rid = none ∧
    (∀ j, j ≠ rid → alookup (onPostFailure m rid err).1 j = alookup m j) ∧
    (onPostFailure m rid err).2 = err := by
  refine ⟨alookup_mdel_self m rid, fun j hj => alookup_mdel_ne m rid j hj, rfl⟩

/-- Witness for C7 at a concrete map: the waiter of "1" is removed, the
waiter of "2" is untouched, the error is passed through. -/
theorem c7_post_failure_removes_w :
    alookup (onPostFailure
        [((Sum.inl ("1".toList) : MId), 11), ((Sum.inl ("2".toList) : MId), 12)]
        (Sum.inl ("1".toList)) ("boom".toList)).1 (Sum.inl ("1".toList)) = none ∧
    alookup (onPostFailure
        [((Sum.inl ("1".toList) : MId), 11), ((Sum.inl ("2".toList) : MId), 12)]
        (Sum.inl ("1".toList)) ("boom".toList)).1 (Sum.inl ("2".toList)) = some 12 ∧
    (onPostFailure
        [((Sum.inl ("1".toList) : MId), 11), ((Sum.inl ("2".toList) : MId), 12)]
        (Sum.inl ("1".toList)) ("boom".toList)).2 = "boom".toList := by
  refine ⟨(c7_post_failure_removes _ _ _).1,
    ?_, (c7_post_failure_removes _ _ _).2.2⟩
  have h := (c7_post_failure_removes
    [((Sum.inl ("1".toList) : MId), 11), ((Sum.inl ("2".toList) : MId), 12)]
    (Sum.inl ("1".toList)) ("boom".toList)).2.1 (Sum.inl ("2".toList)) (by decide)
  rw [h]
  decide

/-- C8: a response whose identifier has no registered waiter is handled
with no observable effect: the registry is returned unchanged and no
waiter is resolved. -/
theorem c8_unmatched_response (m : PendingMap) (r : MResponse) (i : MId)
    (h1 : r.rid = some i) (h2 : alookup m i = none) :
    handleResponse m r = (m, none) := by
  simp [handleResponse, h1, h2]

/-- Witness for C8: a response with identifier "9" against a registry
holding only identifier "1" leaves the registry unchanged and resolves
nothing. -/
theorem c8_unmatched_response_w :
    handleResponse [((Sum.inl ("1".toList) : MId), 11)]
      { rid := some (Sum.inl ("9".toList)), body := 0 } =
      ([((Sum.inl ("1".toList) : MId), 11)], none) :=
  c8_unmatched_response _ _ (Sum.inl ("9".toList)) rfl (by decide)

/-! ## Path translator theorems (claims C3, C9) -/

/-- C3: every path that classifies as unix (the local native namespace)
is rewritten by unixToWslPath to a path that classifies as wsl (the
other host namespace). -/
theorem c3_rewrite_classifies_wsl (p : List Char)
    (h : classifyPath p = PathClass.unix) :
    classifyPath (unixToWslPath p) = PathClass.wsl := by
  have hsplit : unixToWslPath p = wslPfx ++ ("/Ubuntu".toList ++ stripVW p) := by
    unfold unixToWslPath
    rw [← List.append_assoc]
    rfl
  have hpre : wslPfx.isPrefixOf (unixToWslPath p) = true := by
    rw [hsplit]
    exact isPrefixOf_append_self _ _
  have hne : unixToWslPath p ≠ [] := by
    rw [hsplit]
    simp [wslPfx]
  unfold classifyPath
  rw [if_neg hne]
  simp [hpre]

/-- Witness for C3 at the concrete spec example path. -/
theorem c3_rewrite_classifies_wsl_w :
    classifyPath ("/home/user/project".toList) = PathClass.unix ∧
    classifyPath (unixToWslPath ("/home/user/project".toList)) = PathClass.wsl :=
  ⟨by decide, c3_rewrite_classifies_wsl ("/home/user/project".toList) (by decide)⟩

theorem takeWhile_all_append (q : Char → Bool) (l : List Char) (c : Char)
    (t : List Char) (hl : ∀ a ∈ l, q a = true) (hc : q c = false) :
    (l ++ c :: t).takeWhile q = l := by
  induction l with
  | nil => simp [List.takeWhile_cons, hc]
  | cons a l ih =>
    have ha : q a = true := hl a (by simp)
    have ih2 := ih (fun x hx => hl x (by simp [hx]))
    simp [List.takeWhile_cons, ha, ih2]

theorem dropWhile_all_append (q : Char → Bool) (l : List Char) (c : Char)
    (t : List Char) (hl : ∀ a ∈ l, q a = true) (hc : q c = false) :
    (l ++ c :: t).dropWhile q = c :: t := by
  induction l with
  | nil => simp [List.dropWhile_cons, hc]
  | cons a l ih =>
    have ha : q a = true := hl a (by simp)
    have ih2 := ih (fun x hx => hl x (by simp [hx]))
    simp [List.dropWhile_cons, ha, ih2]

/-- C9: after stripping the virtual-workspace segment, the extractor
returns exactly the trailing path component following a final "/dev/"
segment: some nm holds precisely when nm is nonempty, slash-free, and
the stripped path ends with the segment "/dev/" followed by nm. -/
theorem c9_extract_iff (p nm : List Char) :
    extractProjectSubfolder p = some nm ↔
      nm ≠ [] ∧ (∀ c ∈ nm, c ≠ '/') ∧ ∃ pre, stripVW p = pre ++ devSeg ++ nm := by
  have hds : devSeg.reverse = devSegRev := by decide
  have hds2 : devSegRev.reverse = devSeg := by decide
  constructor
  · intro h
    unfold extractProjectSubfolder at h
    split at h
    case isFalse hcond => simp at h
    case isTrue hcond =>
      obtain ⟨hne, hpre⟩ := hcond
      obtain ⟨rest, hrest⟩ := isPrefixOf_exists hpre
      have hnm : nm = ((stripVW p).reverse.takeWhile (· ≠ '/')).reverse :=
        (Option.some_inj.mp h).symm
      refine ⟨by rw [hnm]; simpa using hne, ?_, ?_⟩
      · intro c hc
        rw [hnm, List.mem_reverse] at hc
        simpa using List.mem_takeWhile_imp hc
      · refine ⟨rest.reverse, ?_⟩
        have hsplit2 : (stripVW p).reverse =
            (stripVW p).reverse.takeWhile (· ≠ '/') ++
              (stripVW p).reverse.dropWhile (· ≠ '/') :=
          (List.takeWhile_append_dropWhile _ _).symm
        have hrr : stripVW p = ((stripVW p).reverse).reverse :=
          (List.reverse_reverse _).symm
        rw [hrr]
        conv_lhs => rw [hsplit2]
        rw [List.reverse_append, hrest, List.reverse_append, hds2, ← hnm,
          List.append_assoc]
  · rintro ⟨hne, hnoslash, pre, hp⟩
    have hrev : (stripVW p).reverse = nm.reverse ++ (devSegRev ++ pre.reverse) := by
      rw [hp, List.reverse_append, List.reverse_append, hds]
    have hq : ∀ a ∈ nm.reverse, (fun x => decide (x ≠ '/')) a = true := by
      intro a ha
      rw [List.mem_reverse] at ha
      simpa using hnoslash a ha
    have hcons : devSegRev ++ pre.reverse =
        '/' :: ('v' :: 'e' :: 'd' :: '/' :: pre.reverse) := rfl
    have htake : (stripVW p).reverse.takeWhile (· ≠ '/') = nm.reverse := by
      rw [hrev, hcons]
      exact takeWhile_all_append _ _ _ _ hq (by decide)
    have hdrop : (stripVW p).reverse.dropWhile (· ≠ '/') =
        devSegRev ++ pre.reverse := by
      rw [hrev, hcons]
      exact dropWhile_all_append _ _ _ _ hq (by decide)
    unfold extractProjectSubfolder
    rw [htake, hdrop]
    rw [if_pos ⟨by simpa using hne, isPrefixOf_append_self _ _⟩]
    rw [List.reverse_reverse]

/-- Witness for C9: the two concrete spec examples; the positive one is
an instance of the characterization. -/
theorem c9_extract_iff_w :
    extractProjectSubfolder ("/home/user/dev/myproject".toList) =
      some ("myproject".toList) ∧
    extractProjectSubfolder ("/home/user/x".toList) = none := by
  constructor
  · exact (c9_extract_iff ("/home/user/dev/myproject".toList) ("myproject".toList)).mpr
      ⟨by decide, by decide, ⟨"/home/user".toList, by decide⟩⟩
  · decide

/-! ## Request transform theorems (claims C4, C10) -/

theorem prependStep_lookup_ne (tok : List Char) (a : ArgMap) (k j : List Char)
    (h : j ≠ k) : alookup (prependStep tok a k) j = alookup a j := by
  unfold prependStep
  cases hv : alookup a k with
  | none => rfl
  | some v =>
    cases v with
    | vother t => rfl
    | vstr s =>
      by_cases hc : s ≠ [] ∧ ¬(['/'] : List Char).isPrefixOf s ∧
          ¬tok.isPrefixOf s
      · simp only [if_pos hc]
        exact alookup_mset_ne a k j _ h
      · simp only [if_neg hc]

theorem foldl_prependStep_not_mem (tok : List Char) (ks : List (List Char))
    (a : ArgMap) (k : List Char) (h : k ∉ ks) :
    alookup (ks.foldl (prependStep tok) a) k = alookup a k := by
  induction ks generalizing a with
  | nil => rfl
  | cons k1 ks ih =>
    have h1 : k ≠ k1 := fun he => h (by simp [he])
    have h2 : k ∉ ks := fun he => h (by simp [he])
    simp only [List.foldl_cons]
    rw [ih (prependStep tok a k1) h2]
    exact prependStep_lookup_ne tok a k1 k h1

theorem prependStep_lookup_self (tok : List Char) (a : ArgMap) (k v : List Char)
    (hv : alookup a k = some (JsonVal.vstr v)) :
    alookup (prependStep tok a k) k =
      some (JsonVal.vstr
        (if v ≠ [] ∧ ¬(['/'] : List Char).isPrefixOf v ∧ ¬tok.isPrefixOf v
         then tok ++ '/' :: v else v)) := by
  unfold prependStep
  rw [hv]
  by_cases hc : v ≠ [] ∧ ¬(['/'] : List Char).isPrefixOf v ∧ ¬tok.isPrefixOf v
  · simp only [if_pos hc]
    exact alookup_mset_self a k _
  · simp only [if_neg hc]
    exact hv

/-- The general characterization of the prepending pass at a
path-bearing key: when projectPath holds a nonempty unix-classified
string from which a subfolder token is derived, the value at any key of
the fixed list is prefixed with the token exactly when it is a nonempty
string that does not start with a slash and does not start with the
token, and is untouched otherwise. -/
theorem transformArgs_lookup_key (a : ArgMap) (s tok k v : List Char)
    (hs : alookup a projectPathK = some (JsonVal.vstr s))
    (hne : s ≠ []) (hcls : classifyPath s = PathClass.unix)
    (htok : extractProjectSubfolder s = some tok)
    (hk : k ∈ relativePathKeys)
    (hv : alookup a k = some (JsonVal.vstr v)) :
    alookup (transformArgs a) k =
      some (JsonVal.vstr
        (if v ≠ [] ∧ ¬(['/'] : List Char).isPrefixOf v ∧ ¬tok.isPrefixOf v
         then tok ++ '/' :: v else v)) := by
  have hkpp : k ≠ projectPathK := by
    intro he
    rw [he] at hk
    exact absurd hk (by decide)
  have h0 : transformArgs a = transformWithPP a s := by
    unfold transformArgs
    rw [hs]
  have h1 : transformWithPP a s = transformTok a s (some tok) := by
    unfold transformWithPP
    rw [if_pos ⟨hne, hcls⟩, htok]
  have h2 : transformTok a s (some tok) =
      relativePathKeys.foldl (prependStep tok)
        (mset a projectPathK (JsonVal.vstr (unixToWslPath s))) := rfl
  rw [h0, h1, h2]
  obtain ⟨l₁, l₂, hks⟩ := List.append_of_mem hk
  have hnd : relativePathKeys.Nodup := by decide
  rw [hks] at hnd
  have hk1 : k ∉ l₁ := by
    rw [List.nodup_append] at hnd
    exact fun hmem => hnd.2.2 hmem (by simp)
  have hk2 : k ∉ l₂ := by
    rw [List.nodup_append] at hnd
    exact (List.nodup_cons.mp hnd.2.1).1
  set a1 := mset a projectPathK (JsonVal.vstr (unixToWslPath s)) with ha1
  have hva1 : alookup a1 k = some (JsonVal.vstr v) := by
    rw [ha1, alookup_mset_ne a projectPathK k _ hkpp]
    exact hv
  rw [hks, List.foldl_append, List.foldl_cons]
  rw [foldl_prependStep_not_mem tok l₂ _ k hk2]
  have hmid : alookup (l₁.foldl (prependStep tok) a1) k =
      some (JsonVal.vstr v) := by
    rw [foldl_prependStep_not_mem tok l₁ a1 k hk1]
    exact hva1
  exact prependStep_lookup_self tok _ k v hmid

/-- C4, counterexample to the unamended claim: with projectPath
"/home/u/dev/myproject" (unix-classified, token "myproject") and sibling
key "path" holding the empty string, the claim demands the rewrite
"myproject/" (the empty string is not absolute and does not start with
the token), but the code leaves the empty string unchanged because the
empty string is falsy in the guard of bridge.ts line 81. -/
theorem c4_empty_value_cex :
    classifyPath ("/home/u/dev/myproject".toList) = PathClass.unix ∧
    extractProjectSubfolder ("/home/u/dev/myproject".toList) =
      some ("myproject".toList) ∧
    (¬(['/'] : List Char).isPrefixOf ([] : List Char)) ∧
    (¬("myproject".toList).isPrefixOf ([] : List Char)) ∧
    alookup (transformArgs
        [(projectPathK, JsonVal.vstr ("/home/u/dev/myproject".toList)),
         ("path".toList, JsonVal.vstr [])]) ("path".toList) =
      some (JsonVal.vstr []) ∧
    some (JsonVal.vstr ([] : List Char)) ≠
      some (JsonVal.vstr ("myproject/".toList)) := by
  refine ⟨by decide, by decide, by decide, by decide, by decide, by decide⟩

/-- C4 as amended: in a tools/call request whose projectPath argument is
a nonempty unix-classified string deriving subfolder token tok, a
path-bearing argument holding a nonempty string that does not start with
a slash and does not start with tok is rewritten to tok, slash, value,
and any other string value at such a key (empty, absolute, or already
token-prefixed) is left unchanged. -/
theorem c4_sibling_prepend (r : MCPRequest) (a : ArgMap) (s tok k v : List Char)
    (hm : r.method = toolsCallM) (ha : r.args = some a)
    (hs : alookup a projectPathK = some (JsonVal.vstr s))
    (hne : s ≠ []) (hcls : classifyPath s = PathClass.unix)
    (htok : extractProjectSubfolder s = some tok)
    (hk : k ∈ relativePathKeys)
    (hv : alookup a k = some (JsonVal.vstr v)) :
    (transformRequest r).args = some (transformArgs a) ∧
    alookup (transformArgs a) k =
      some (JsonVal.vstr
        (if v ≠ [] ∧ ¬(['/'] : List Char).isPrefixOf v ∧ ¬tok.isPrefixOf v
         then tok ++ '/' :: v else v)) := by
  constructor
  · simp [transformRequest, ha, hm]
  · exact transformArgs_lookup_key a s tok k v hs hne hcls htok hk hv

/-- Witness for the amended C4 at the two spec examples: the relative
sibling "src/app" is rewritten to "myproject/src/app" while the absolute
sibling stays unchanged. -/
theorem c4_sibling_prepend_w :
    alookup (transformArgs
        [(projectPathK, JsonVal.vstr ("/home/u/dev/myproject".toList)),
         ("path".toList, JsonVal.vstr ("src/app".toList)),
         ("filePath".toList, JsonVal.vstr ("/abs/x".toList))]) ("path".toList) =
      some (JsonVal.vstr ("myproject/src/app".toList)) ∧
    alookup (transformArgs
        [(projectPathK, JsonVal.vstr ("/home/u/dev/myproject".toList)),
         ("path".toList, JsonVal.vstr ("src/app".toList)),
         ("filePath".toList, JsonVal.vstr ("/abs/x".toList))]) ("filePath".toList) =
      some (JsonVal.vstr ("/abs/x".toList)) := by
  constructor
  · have h := (c4_sibling_prepend
      { rid := none, method := toolsCallM,
        args := some [(projectPathK, JsonVal.vstr ("/home/u/dev/myproject".toList)),
          ("path".toList, JsonVal.vstr ("src/app".toList)),
          ("filePath".toList, JsonVal.vstr ("/abs/x".toList))] }
      [(projectPathK, JsonVal.vstr ("/home/u/dev/myproject".toList)),
        ("path".toList, JsonVal.vstr ("src/app".toList)),
        ("filePath".toList, JsonVal.vstr ("/abs/x".toList))]
      ("/home/u/dev/myproject".toList) ("myproject".toList)
      ("path".toList) ("src/app".toList)
      rfl rfl (by decide) (by decide) (by decide) (by decide) (by decide)
      (by decide)).2
    rw [h, if_pos ⟨by decide, by decide, by decide⟩]
    decide
  · have h := (c4_sibling_prepend
      { rid := none, method := toolsCallM,
        args := some [(projectPathK, JsonVal.vstr ("/home/u/dev/myproject".toList)),
          ("path".toList, JsonVal.vstr ("src/app".toList)),
          ("filePath".toList, JsonVal.vstr ("/abs/x".toList))] }
      [(projectPathK, JsonVal.vstr ("/home/u/dev/myproject".toList)),
        ("path".toList, JsonVal.vstr ("src/app".toList)),
        ("filePath".toList, JsonVal.vstr ("/abs/x".toList))]
      ("/home/u/dev/myproject".toList) ("myproject".toList)
      ("filePath".toList) ("/abs/x".toList)
      rfl rfl (by decide) (by decide) (by decide) (by decide) (by decide)
      (by decide)).2
    rw [h, if_neg (by decide)]

/-- C10: the absoluteness test of bridge.ts line 83 checks only for a
leading slash, so a sibling value with a Windows drive-letter prefix
(absolute in Windows form) that does not start with the token is still
rewritten to token, slash, value. -/
theorem c10_drive_value_prepended (r : MCPRequest) (a : ArgMap)
    (s tok k v : List Char)
    (hm : r.method = toolsCallM) (ha : r.args = some a)
    (hs : alookup a projectPathK = some (JsonVal.vstr s))
    (hne : s ≠ []) (hcls : classifyPath s = PathClass.unix)
    (htok : extractProjectSubfolder s = some tok)
    (hk : k ∈ relativePathKeys)
    (hv : alookup a k = some (JsonVal.vstr v))
    (hdrive : isDriveLetter v = true)
    (hpre : ¬tok.isPrefixOf v) :
    (transformRequest r).args = some (transformArgs a) ∧
    alookup (transformArgs a) k =
      some (JsonVal.vstr (tok ++ '/' :: v)) := by
  obtain ⟨c, d, rest, hvc, hca, hdc⟩ : ∃ c d rest,
      v = c :: d :: rest ∧ c.isAlpha = true ∧ d = ':' := by
    cases v with
    | nil => exact absurd hdrive (by decide)
    | cons c tail =>
      cases tail with
      | nil =>
        have hf : isDriveLetter [c] = false := rfl
        rw [hf] at hdrive
        exact absurd hdrive (by simp)
      | cons d rest =>
        have hf : isDriveLetter (c :: d :: rest) =
            (c.isAlpha && decide (d = ':')) := rfl
        rw [hf, Bool.and_eq_true] at hdrive
        exact ⟨c, d, rest, rfl, hdrive.1, by simpa using hdrive.2⟩
  have hvne : v ≠ [] := by rw [hvc]; simp
  have hslash : ¬(['/'] : List Char).isPrefixOf v := by
    intro habs
    obtain ⟨t, ht⟩ := isPrefixOf_exists habs
    rw [hvc] at ht
    have hcs : c = '/' := by
      have := congrArg (fun l => l.head?) ht
      simpa using this
    rw [hcs] at hca
    exact absurd hca (by decide)
  have h := transformArgs_lookup_key a s tok k v hs hne hcls htok hk hv
  constructor
  · simp [transformRequest, ha, hm]
  · rw [h, if_pos ⟨hvne, hslash, hpre⟩]

/-- Witness for C10: the sibling value is a Windows drive path and is
still prefixed with the token. -/
theorem c10_drive_value_prepended_w :
    alookup (transformArgs
        [(projectPathK, JsonVal.vstr ("/home/u/dev/myproject".toList)),
         ("filePath".toList, JsonVal.vstr ("C:\\x".toList))]) ("filePath".toList) =
      some (JsonVal.vstr ("myproject/C:\\x".toList)) := by
  have h := (c10_drive_value_prepended
    { rid := none, method := toolsCallM,
      args := some [(projectPathK, JsonVal.vstr ("/home/u/dev/myproject".toList)),
        ("filePath".toList, JsonVal.vstr ("C:\\x".toList))] }
    [(projectPathK, JsonVal.vstr ("/home/u/dev/myproject".toList)),
      ("filePath".toList, JsonVal.vstr ("C:\\x".toList))]
    ("/home/u/dev/myproject".toList) ("myproject".toList)
    ("filePath".toList) ("C:\\x".toList)
    rfl rfl (by decide) (by decide) (by decide) (by decide) (by decide)
    (by decide) (by decide) (by decide)).2
  rw [h]
  decide

/-! ## Event stream parser theorems (claims C5, C1) -/

theorem procLinesFrom_eq_specLines (ls : List (List Char)) (pd pe : List Char) :
    procLinesFrom (pd, pe) ls = specLines pd ls := by
  induction ls generalizing pd pe with
  | nil => rfl
  | cons l ls ih =>
    cases h1 : dataPfx.isPrefixOf l with
    | true =>
      simp only [procLinesFrom, procLine, h1, if_true, specLines]
      simpa using ih (l.drop 6) pe
    | false =>
      cases h2 : eventPfx.isPrefixOf l with
      | true =>
        by_cases h3 : pd ≠ [] ∧ jsTrim (l.drop 7) ≠ []
        · simp only [procLinesFrom, procLine, h1, h2, specLines]
          simp only [Bool.false_eq_true, if_false, if_true, if_pos h3]
          simpa using ih [] []
        · simp only [procLinesFrom, procLine, h1, h2, specLines]
          simp only [Bool.false_eq_true, if_false, if_true, if_neg h3]
          simpa using ih pd (jsTrim (l.drop 7))
      | false =>
        simp only [procLinesFrom, procLine, h1, h2, specLines]
        simp only [Bool.false_eq_true, if_false]
        simpa using ih pd pe

/-- C5, counterexample to the unamended claim: an event-prefixed line
whose event name trims to the empty string emits nothing even though
the pending-data slot is populated by the preceding data line, against
the claim that an event line emits exactly one pair if and only if the
pending-data slot is populated. -/
theorem c5_empty_event_name_cex :
    eventPfx.isPrefixOf ("event: ".toList) = true ∧
    ("x".toList : List Char) ≠ [] ∧
    processLines [("data: x".toList), ("event: ".toList)] = [] := by
  refine ⟨by decide, by decide, by decide⟩

/-- C5 as amended: within one batch of complete lines the parser
behaves exactly as the per-line framing rule with the emission condition
strengthened to also require a nonempty trimmed event name: a data line
sets the pending-data slot; an event line emits one (event, data) pair
and clears the slots exactly when the pending-data slot is populated and
the trimmed name is nonempty, and otherwise emits nothing while
retaining the pending data; other lines are ignored; pending state is
reset after every emission. -/
theorem c5_batch_framing (lines : List (List Char)) :
    processLines lines = specLines [] lines :=
  procLinesFrom_eq_specLines lines [] []

theorem splitNl_ne_nil (s : List Char) : splitNl s ≠ [] := by
  cases s with
  | nil => simp [splitNl]
  | cons c cs =>
    unfold splitNl
    by_cases h : c = '\n'
    · simp [h]
    · simp only [if_neg h]
      cases splitNl cs <;> simp [consHead]

theorem splitNl_line (l : List Char) (r : List Char) (h : '\n' ∉ l) :
    splitNl (l ++ '\n' :: r) = l :: splitNl r := by
  induction l with
  | nil => simp [splitNl]
  | cons c cs ih =>
    have hc : c ≠ '\n' := fun he => h (by simp [he])
    have hcs : '\n' ∉ cs := fun he => h (by simp [he])
    simp only [List.cons_append, splitNl, if_neg hc, List.append_eq]
    rw [ih hcs]
    simp [consHead]

theorem splitNl_encodePair (p : List Char × List Char) (r : List Char)
    (hp : GoodPair p) :
    splitNl (encodePair p ++ r) =
      (dataPfx ++ p.1) :: (eventPfx ++ p.2) :: splitNl r := by
  obtain ⟨-, hd, -, he⟩ := hp
  have h1 : encodePair p ++ r =
      (dataPfx ++ p.1) ++ '\n' :: ((eventPfx ++ p.2) ++ '\n' :: r) := by
    simp [encodePair]
  rw [h1]
  rw [splitNl_line _ _ (by
    intro hmem
    rcases List.mem_append.mp hmem with hm | hm
    · exact absurd hm (by decide)
    · exact hd hm)]
  rw [splitNl_line _ _ (by
    intro hmem
    rcases List.mem_append.mp hmem with hm | hm
    · exact absurd hm (by decide)
    · exact he hm)]

theorem splitNl_encodeStream (ps : List (List Char × List Char)) (r : List Char)
    (h : ∀ p ∈ ps, GoodPair p) :
    splitNl (encodeStream ps ++ r) = linesOfPairs ps ++ splitNl r := by
  induction ps with
  | nil => simp [encodeStream, linesOfPairs]
  | cons p ps ih =>
    have hstep : encodeStream (p :: ps) ++ r = encodePair p ++ (encodeStream ps ++ r) := by
      simp [encodeStream]
    rw [hstep, splitNl_encodePair p _ (h p (by simp))]
    rw [ih (fun q hq => h q (by simp [hq]))]
    simp [linesOfPairs, pairLines]

theorem dataPfx_isPrefixOf_own (d : List Char) :
    dataPfx.isPrefixOf (dataPfx ++ d) = true :=
  isPrefixOf_append_self dataPfx d

theorem dataPfx_not_isPrefixOf_eventLine (e : List Char) :
    dataPfx.isPrefixOf (eventPfx ++ e) = false := rfl

theorem drop6_dataLine (d : List Char) : (dataPfx ++ d).drop 6 = d :=
  List.drop_left dataPfx d

theorem drop7_eventLine (e : List Char) : (eventPfx ++ e).drop 7 = e :=
  List.drop_left eventPfx e

theorem procLinesFrom_pairs (ps : List (List Char × List Char)) (pe : List Char)
    (h : ∀ p ∈ ps, GoodPair p) :
    procLinesFrom ([], pe) (linesOfPairs ps) = ps.map emitOf := by
  induction ps generalizing pe with
  | nil => rfl
  | cons p ps ih =>
    obtain ⟨hd, -, he, -⟩ := h p (by simp)
    have hlines : linesOfPairs (p :: ps) =
        (dataPfx ++ p.1) :: (eventPfx ++ p.2) :: linesOfPairs ps := by
      simp [linesOfPairs, pairLines]
    rw [hlines]
    simp only [procLinesFrom]
    simp only [procLine, dataPfx_isPrefixOf_own, if_true, drop6_dataLine]
    simp only [procLine, dataPfx_not_isPrefixOf_eventLine, Bool.false_eq_true,
      if_false, isPrefixOf_append_self, if_true, drop7_eventLine]
    rw [if_pos ⟨hd, he⟩]
    simp only [List.nil_append, List.singleton_append]
    rw [ih [] (fun q hq => h q (by simp [hq]))]
    rfl

theorem feedChunk_encode (ps : List (List Char × List Char))
    (h : ∀ p ∈ ps, GoodPair p) :
    feedChunk [] (encodeStream ps) = ([], ps.map emitOf) := by
  unfold feedChunk
  have hsplit : splitNl ([] ++ encodeStream ps) = linesOfPairs ps ++ [[]] := by
    rw [List.nil_append]
    have := splitNl_encodeStream ps [] h
    simpa [splitNl] using this
  rw [hsplit]
  show ((linesOfPairs ps ++ [[]]).getLastD [],
      processLines (linesOfPairs ps ++ [[]]).dropLast) = ([], ps.map emitOf)
  rw [List.dropLast_concat]
  have hlast : (linesOfPairs ps ++ [[]]).getLastD [] = [] := by
    simp [List.getLastD_concat]
  rw [hlast]
  unfold processLines
  rw [procLinesFrom_pairs ps [] h]

/-- C1 as amended: the parser resets its pending slots at every chunk
boundary (they are local to processLines), so invariance holds only for
chunkings whose boundaries coincide with block boundaries: any grouping
of a stream of well-formed (data, event) blocks into chunks emits
exactly the full sequence of (event, data) pairs, independent of the
grouping; boundaries separating a data line from its event line across
read batches lose the pair. -/
theorem c1_block_chunking (gs : List (List (List Char × List Char)))
    (h : ∀ p ∈ gs.flatten, GoodPair p) :
    runChunks (gs.map encodeStream) = gs.flatten.map emitOf := by
  induction gs with
  | nil => rfl
  | cons g gs ih =>
    have hg : ∀ p ∈ g, GoodPair p := fun p hp => h p (by simp [hp])
    have hgs : ∀ p ∈ gs.flatten, GoodPair p := fun p hp => h p (by simp [hp])
    simp only [List.map_cons]
    unfold runChunks at *
    simp only [runChunksFrom]
    rw [feedChunk_encode g hg]
    simp only []
    rw [ih hgs]
    simp [List.flatten_cons]

/-- Witness for the amended C1: two blocks split into two block-aligned
chunks emit both pairs. -/
theorem c1_block_chunking_w :
    (∀ p ∈ ([[(("x".toList), ("endpoint".toList))],
        [(("y".toList), ("message".toList))]] :
        List (List (List Char × List Char))).flatten, GoodPair p) ∧
    runChunks (([[(("x".toList), ("endpoint".toList))],
        [(("y".toList), ("message".toList))]] :
        List (List (List Char × List Char))).map encodeStream) =
      ([[(("x".toList), ("endpoint".toList))],
        [(("y".toList), ("message".toList))]] :
        List (List (List Char × List Char))).flatten.map emitOf :=
  ⟨by decide, c1_block_chunking _ (by decide)⟩

/-- C1, counterexample to the unamended claim: the same well-framed
stream, one data line immediately followed by its event line, delivered
as a single chunk versus split at the line boundary, emits one pair in
the first case and none in the second, because the pending slots are
local to each batch of lines. -/
theorem c1_boundary_cex :
    (["data: x\nevent: endpoint\n".toList] :
        List (List Char)).flatten =
      (["data: x\n".toList, "event: endpoint\n".toList] :
        List (List Char)).flatten ∧
    "data: x\nevent: endpoint\n".toList =
      encodeStream [(("x".toList), ("endpoint".toList))] ∧
    GoodPair (("x".toList), ("endpoint".toList)) ∧
    runChunks ["data: x\nevent: endpoint\n".toList] =
      [(("endpoint".toList), ("x".toList))] ∧
    runChunks ["data: x\n".toList, "event: endpoint\n".toList] = [] := by
  refine ⟨by decide, by decide, by decide, by decide, by decide⟩

/-! ## Connection manager theorem (claim C6) -/

/-- C6: on either drop event (end-of-stream or connection error) from a
state respecting the timer discipline, the endpoint is cleared and
exactly one reconnection timer is live afterwards, the fresh one with
the fixed 2000 millisecond delay; the previously pending timer, if any,
is cancelled; and the discipline is preserved. -/
theorem c6_drop_reschedules (s : ConnState) (e : DropEvent) (fresh : Nat)
    (h : TimerInv s) :
    (onDrop s e fresh).jbMessageEndpoint = none ∧
    (onDrop s e fresh).liveTimers = [(fresh, 2000)] ∧
    (onDrop s e fresh).reconnectTimer = some fresh ∧
    TimerInv (onDrop s e fresh) := by
  have key : ∀ s1 : ConnState, TimerInv s1 →
      (scheduleReconnect s1 fresh).liveTimers = [(fresh, 2000)] ∧
      (scheduleReconnect s1 fresh).reconnectTimer = some fresh := by
    intro s1 h1
    unfold scheduleReconnect
    cases hrt : s1.reconnectTimer with
    | none =>
      have hempty : s1.liveTimers = [] := by
        refine List.eq_nil_iff_forall_not_mem.mpr fun p hp => ?_
        have := (h1.2 p hp).1
        rw [hrt] at this
        exact Option.noConfusion this
      simp [hempty]
    | some t =>
      simp
      intro a b hab
      have := (h1.2 (a, b) hab).1
      rw [hrt] at this
      exact (Option.some_inj.mp this).symm
  have hinv : ∀ t1 : List (Nat × Nat), t1 = [(fresh, 2000)] →
      ∀ rt, rt = some fresh → (t1.length ≤ 1 ∧ ∀ p ∈ t1, rt = some p.1 ∧ p.2 = 2000) := by
    intro t1 ht rt hrt
    subst ht
    subst hrt
    refine ⟨by simp, fun p hp => ?_⟩
    simp at hp
    simp [hp]
  cases e with
  | streamEnded =>
    have h1 : TimerInv { s with jbMessageEndpoint := none } := h
    obtain ⟨hl, hr⟩ := key _ h1
    refine ⟨?_, hl, hr, hinv _ hl _ hr⟩
    simp [onDrop, scheduleReconnect]
    cases hrt : ({ s with jbMessageEndpoint := none } : ConnState).reconnectTimer <;> simp [hrt]
  | connError =>
    have h1 : TimerInv { s with jbMessageEndpoint := none, isConnecting := false } := h
    obtain ⟨hl, hr⟩ := key _ h1
    refine ⟨?_, hl, hr, hinv _ hl _ hr⟩
    simp [onDrop, scheduleReconnect]
    cases hrt : ({ s with jbMessageEndpoint := none, isConnecting := false } : ConnState).reconnectTimer <;> simp [hrt]

/-- Witness for C6 at a concrete state with one pending timer: the drop
cancels timer 3 and leaves exactly the fresh timer 7 with delay 2000. -/
theorem c6_drop_reschedules_w :
    (onDrop
        { jbMessageEndpoint := some ("/msg".toList), isConnecting := false,
          reconnectTimer := some 3, liveTimers := [(3, 2000)] }
        DropEvent.streamEnded 7).jbMessageEndpoint = none ∧
    (onDrop
        { jbMessageEndpoint := some ("/msg".toList), isConnecting := false,
          reconnectTimer := some 3, liveTimers := [(3, 2000)] }
        DropEvent.streamEnded 7).liveTimers = [(7, 2000)] ∧
    (onDrop
        { jbMessageEndpoint := some ("/msg".toList), isConnecting := false,
          reconnectTimer := some 3, liveTimers := [(3, 2000)] }
        DropEvent.streamEnded 7).reconnectTimer = some 7 ∧
    TimerInv (onDrop
        { jbMessageEndpoint := some ("/msg".toList), isConnecting := false,
          reconnectTimer := some 3, liveTimers := [(3, 2000)] }
        DropEvent.streamEnded 7) :=
  c6_drop_reschedules
    { jbMessageEndpoint := some ("/msg".toList), isConnecting := false,
      reconnectTimer := some 3, liveTimers := [(3, 2000)] }
    DropEvent.streamEnded 7 (by decide)

end Bridge
